import Mathlib

/-!
Shallow embedding of `src/migrations_server.js` (meteor/meteor-migrations).

Modeling conventions:
* JS numbers are modeled as `Rat` (versions are arbitrary JS numbers; the code never
  requires them to be integers).  `NaN` targets (from `parseInt` of a non-numeric
  string) are modeled as `none : Option Rat`; every `===` comparison and every `<`
  comparison against `none` is `false`, as for `NaN` in JS.
* The Mongo collection holds a single `control` document; it is modeled as
  `Option ControlRecord`, `none` meaning the document is absent.  `lockedAt : new Date()`
  stamps are modeled with a logical clock (`MState.time`) that advances on every write.
* Asynchronous step bodies are modeled by their observable behavior: `StepBehavior.ok`
  (the promise resolves) or `StepBehavior.throws e` (it rejects with an error identified
  by the token `e`).  A field `up`/`down` that is not a function is `none`.
* Every store access and every step invocation is recorded in an event trace:
  `lockAttempt` for the atomic conditional update of `lock()`, `setControl` for each
  `_setControl` write, `unlockOnly` for the public `unlock()`'s bare `$set`,
  and `stepRun d step args` for the call `migration[direction](migration)` — `args` is
  the argument list that the engine passes to the step body.
* The `for` loops of `_migrateTo` are translated with an explicit iteration count
  (`fuel`): the loop `for (i = startIdx; i < endIdx; i++)` runs exactly
  `endIdx - startIdx` times (natural subtraction), and the loop
  `for (i = startIdx; i > endIdx; i--)` runs exactly `startIdx - endIdx` times,
  so the translation is equivalent for all inputs and structurally recursive.
* Logging (`createLogger`, `log.info`, ...) has no effect on the store, the registry or
  the control flow, and is not modeled.
-/

namespace MeteorMigrations

/-- Direction of a step invocation: the `'up'` / `'down'` strings of the source. -/
inductive Dir
  | up
  | down
deriving DecidableEq, Repr

/-- Observable behavior of a step body: the promise resolves, or rejects with an
error identified by a token. -/
inductive StepBehavior
  | ok
  | throws (e : Nat)
deriving DecidableEq, Repr

/-- A migration step object as held in `Migrations._list`.  `up`/`down` are `none` when
the corresponding field is not a function.  (`Object.freeze` makes the JS object
immutable after registration; Lean values are immutable by construction.) -/
structure MStep where
  version : Rat
  name : Option String := none
  up : Option StepBehavior := none
  down : Option StepBehavior := none
deriving DecidableEq, Repr

/-- The sentinel: `const DefaultMigration = { version: 0, up: function() {} };`. -/
def DefaultMigration : MStep := { version := 0, up := some StepBehavior.ok }

/-- The persisted `control` document: `{ version, locked, lockedAt }`. -/
structure ControlRecord where
  version : Rat
  locked : Bool
  lockedAt : Nat
deriving DecidableEq, Repr

/-- Store state: the singleton control document (absent = `none`) and a logical clock
stamping `new Date()` on writes. -/
structure MState where
  store : Option ControlRecord
  time : Nat
deriving DecidableEq, Repr

/-- Observable events of a run (store writes, lock attempts, step invocations). -/
inductive Event
  | lockAttempt (acquired : Bool)
  | stepRun (d : Dir) (step : MStep) (args : List MStep)
  | setControl (version : Rat) (locked : Bool)
  | unlockOnly
deriving DecidableEq, Repr

/-- The `command` argument of `migrateTo`: `undefined`, a string, or a number. -/
inductive Command
  | undef
  | str (s : String)
  | num (q : Rat)
deriving DecidableEq, Repr

/-- Errors thrown by the engine (`new Error` / `new Meteor.Error`), plus `stepThrew`
for an error raised by a step body itself. -/
inductive MigErr
  | invalidCommand (command : Command)
  | upNotFunction
  | versionNotNumber
  | versionNotPositive
  | versionNotFound (version : Option Rat)
  | cannotMigrateDirection (d : Dir) (version : Rat)
  | stepThrew (e : Nat)
deriving DecidableEq, Repr

deriving instance DecidableEq for Except

/-- Models `Migrations._setControl(control)`: checks `version : Number`, `locked : Boolean`
(always satisfied in this typed model), then upserts
`{ $set: { version, locked, lockedAt: new Date() } }` on the control document. -/
def _setControl (version : Rat) (locked : Bool) (s : MState) : MState × List Event :=
  (⟨some ⟨version, locked, s.time⟩, s.time + 1⟩, [Event.setControl version locked])

/-- Models `Migrations._getControl()`: reads the control document; when absent, persists and
returns the default `{ version: 0, locked: false }`. -/
def _getControl (s : MState) : ControlRecord × MState × List Event :=
  match s.store with
  | some c => (c, s, [])
  | none =>
      let r := _setControl 0 false s
      (⟨0, false, s.time⟩, r.1, r.2)

/-- The inner `lock()` of `_migrateTo`: one atomic conditional update,
`update({_id:'control', locked:false}, {$set:{locked:true, lockedAt:new Date()}})`;
returns whether exactly one document matched. -/
def lock (s : MState) : Bool × MState × List Event :=
  match s.store with
  | some c =>
      if c.locked then (false, s, [Event.lockAttempt false])
      else (true, ⟨some ⟨c.version, true, s.time⟩, s.time + 1⟩, [Event.lockAttempt true])
  | none => (false, s, [Event.lockAttempt false])

/-- Helper for the linear scan of `_findIndexByVersion`, carrying the next index. -/
def findIndexFrom (version : Option Rat) : List MStep → Nat → Except MigErr Nat
  | [], _ => Except.error (MigErr.versionNotFound version)
  | m :: rest, i =>
      if some m.version = version then Except.ok i else findIndexFrom version rest (i + 1)

/-- Models `Migrations._findIndexByVersion(version)`: first index whose `version` matches, else
throws `Can't find migration version ...`. -/
def _findIndexByVersion (list : List MStep) (version : Option Rat) : Except MigErr Nat :=
  findIndexFrom version list 0

/-- Lookup of `migration[direction]`. -/
def dirFun (m : MStep) : Dir → Option StepBehavior
  | Dir.up => m.up
  | Dir.down => m.down

/-- The inner `migrate(direction, idx)` of `_migrateTo`: when the direction function is
absent, `await unlock()` (which writes `{locked:false, version:currentVersion}`) and
throw; otherwise `await migration[direction](migration)` — the step object itself is the
single argument.  (`self._list[idx]` is totalized with `getD`; every call site passes an
in-range index obtained from `_findIndexByVersion`.) -/
def migrate (list : List MStep) (currentVersion : Rat) (d : Dir) (idx : Nat) (s : MState) :
    Except MigErr Unit × MState × List Event :=
  let migration := list.getD idx DefaultMigration
  match dirFun migration d with
  | none =>
      let r := _setControl currentVersion false s
      (Except.error (MigErr.cannotMigrateDirection d migration.version), r.1, r.2)
  | some StepBehavior.ok => (Except.ok (), s, [Event.stepRun d migration [migration]])
  | some (StepBehavior.throws e) =>
      (Except.error (MigErr.stepThrew e), s, [Event.stepRun d migration [migration]])

/-- The loop `for (let i = startIdx; i < endIdx; i++) { await migrate('up', i+1);
currentVersion = self._list[i+1].version; await updateVersion(); }`, with `fuel`
equal to the remaining iteration count `endIdx - i`.  Returns the result, the value of
`currentVersion` on exit, the store state and the emitted events. -/
def runUp (list : List MStep) : Nat → Nat → Rat → MState →
    Except MigErr Unit × Rat × MState × List Event
  | 0, _, cv, s => (Except.ok (), cv, s, [])
  | fuel + 1, i, cv, s =>
      match migrate list cv Dir.up (i + 1) s with
      | (Except.error e, s1, tr1) => (Except.error e, cv, s1, tr1)
      | (Except.ok _, s1, tr1) =>
          let cv1 := (list.getD (i + 1) DefaultMigration).version
          let r2 := _setControl cv1 true s1
          match runUp list fuel (i + 1) cv1 r2.1 with
          | (res, cvf, sf, tr3) => (res, cvf, sf, tr1 ++ r2.2 ++ tr3)

/-- The loop `for (let i = startIdx; i > endIdx; i--) { await migrate('down', i);
currentVersion = self._list[i-1].version; await updateVersion(); }`, with `fuel`
equal to the remaining iteration count `i - endIdx`. -/
def runDown (list : List MStep) : Nat → Nat → Rat → MState →
    Except MigErr Unit × Rat × MState × List Event
  | 0, _, cv, s => (Except.ok (), cv, s, [])
  | fuel + 1, i, cv, s =>
      match migrate list cv Dir.down i s with
      | (Except.error e, s1, tr1) => (Except.error e, cv, s1, tr1)
      | (Except.ok _, s1, tr1) =>
          let cv1 := (list.getD (i - 1) DefaultMigration).version
          let r2 := _setControl cv1 true s1
          match runDown list fuel (i - 1) cv1 r2.1 with
          | (res, cvf, sf, tr3) => (res, cvf, sf, tr1 ++ r2.2 ++ tr3)

/-- JS `<` with a possibly-NaN right operand: `currentVersion < NaN` is `false`. -/
def jsLt (a : Rat) (b : Option Rat) : Bool :=
  match b with
  | some q => decide (a < q)
  | none => false

/-- Models `Migrations._migrateTo(version, rerun)` — the whole private entry point.  Returns the
result (`ok` or the propagated error), the final store state, and the event trace.
Notes mirrored from the source: the fast path returns before any lock attempt; a denied
lock returns `ok`; on the rerun path `_findIndexByVersion` is evaluated inside the
`try`, so the `finally` unlock still runs when it throws; on the sequential path
`startIdx`/`endIdx` are resolved *before* the `try`, so a missing version throws with
the lock still held; the `finally` always writes `{locked:false, version:currentVersion}`
with the last committed `currentVersion`. -/
def _migrateTo (list : List MStep) (version : Option Rat) (rerun : Bool) (s : MState) :
    Except MigErr Unit × MState × List Event :=
  match _getControl s with
  | (control, s1, tr1) =>
    let currentVersion := control.version
    if !rerun && (version == some currentVersion) then
      (Except.ok (), s1, tr1)
    else
      match lock s1 with
      | (isLocked, s2, tr2) =>
        if isLocked = false then
          (Except.ok (), s2, tr1 ++ tr2)
        else if rerun then
          match _findIndexByVersion list version with
          | Except.ok idx =>
              match migrate list currentVersion Dir.up idx s2 with
              | (res, s3, tr3) =>
                  let r4 := _setControl currentVersion false s3
                  (res, r4.1, tr1 ++ tr2 ++ tr3 ++ r4.2)
          | Except.error e =>
              let r3 := _setControl currentVersion false s2
              (Except.error e, r3.1, tr1 ++ tr2 ++ r3.2)
        else
          match _findIndexByVersion list (some currentVersion) with
          | Except.error e => (Except.error e, s2, tr1 ++ tr2)
          | Except.ok startIdx =>
            match _findIndexByVersion list version with
            | Except.error e => (Except.error e, s2, tr1 ++ tr2)
            | Except.ok endIdx =>
              match (if jsLt currentVersion version then
                       runUp list (endIdx - startIdx) startIdx currentVersion s2
                     else
                       runDown list (startIdx - endIdx) startIdx currentVersion s2) with
              | (res, cvf, s3, tr3) =>
                  let r4 := _setControl cvf false s3
                  (res, r4.1, tr1 ++ tr2 ++ tr3 ++ r4.2)

/-- The expression `this._list[this._list.length - 1].version` (call sites guarantee nonemptiness). -/
def latestVersion (list : List MStep) : Rat := (list.getLastD DefaultMigration).version

/-- JS `parseInt` on a string: skip leading spaces, optional sign, longest decimal digit
prefix; `none` models the `NaN` result.  (Hexadecimal and exponential forms are not
exercised by any command in this development.) -/
def parseIntJS (c : String) : Option Int :=
  let cs := c.toList.dropWhile (fun ch => ch = ' ')
  let p : Int × List Char :=
    match cs with
    | '-' :: rest => (-1, rest)
    | '+' :: rest => (1, rest)
    | _ => (1, cs)
  let ds := p.2.takeWhile Char.isDigit
  if ds.isEmpty then none
  else some (p.1 * ((ds.foldl (fun acc ch => 10 * acc + (ch.toNat - '0'.toNat)) 0 : Nat) : Int))

/-- JS `parseInt` applied to a number argument (it is stringified first): for ordinary
decimal notation the result is truncation toward zero.  (Exponential-notation corner
cases are not exercised by any claim.) -/
def parseIntOfNum (q : Rat) : Option Rat :=
  some (if 0 ≤ q then ((q.floor : Int) : Rat) else -((((-q).floor : Int) : Rat)))

/-- Did the run return normally? (used for the `,exit` side effect). -/
def isOkResult : Except MigErr Unit → Bool
  | Except.ok _ => true
  | Except.error _ => false

/-- Split a character list at every comma (JS `String.prototype.split(',')`):
`''.split(',')` is `['']`, and every comma starts a new group. -/
def splitCharsOnComma : List Char → List (List Char)
  | [] => [[]]
  | ch :: rest =>
      if ch = ',' then [] :: splitCharsOnComma rest
      else
        match splitCharsOnComma rest with
        | [] => [[ch]]
        | g :: gs => (ch :: g) :: gs

/-- Models `command.split(',')` of the source. -/
def splitOnComma (c : String) : List String :=
  (splitCharsOnComma c.toList).map (fun cs => String.mk cs)

/-- Models `Migrations.migrateTo(command)`: throws `Cannot migrate using invalid command` when
`command` is `undefined`, the empty string, or `this._list.length === 0`; otherwise
splits the string on `','` into version and subcommand, resolves `'latest'` to the last
registered version (calling `_migrateTo` with `rerun` undefined, i.e. `false`), else
calls `_migrateTo(parseInt(version), subcommand === 'rerun')`.  The returned `Bool`
records whether `process.exit(0)` is reached (`subcommand === 'exit'` after a normal
return). -/
def migrateTo (list : List MStep) (command : Command) (s : MState) :
    Except MigErr Unit × MState × List Event × Bool :=
  match command with
  | Command.undef => (Except.error (MigErr.invalidCommand Command.undef), s, [], false)
  | Command.num q =>
      if list.length = 0 then
        (Except.error (MigErr.invalidCommand (Command.num q)), s, [], false)
      else
        match _migrateTo list (parseIntOfNum q) false s with
        | (res, s1, tr) => (res, s1, tr, false)
  | Command.str c =>
      if c = "" ∨ list.length = 0 then
        (Except.error (MigErr.invalidCommand (Command.str c)), s, [], false)
      else
        let parts := splitOnComma c
        let versionStr := parts.getD 0 ""
        let subcommand := parts[1]?
        if versionStr = "latest" then
          match _migrateTo list (some (latestVersion list)) false s with
          | (res, s1, tr) => (res, s1, tr, isOkResult res && (subcommand == some "exit"))
        else
          match _migrateTo list ((parseIntJS versionStr).map (fun n => (n : Rat)))
                  (subcommand == some "rerun") s with
          | (res, s1, tr) => (res, s1, tr, isOkResult res && (subcommand == some "exit"))

/-- Models `Migrations.getVersion()`: `(await this._getControl()).version`. -/
def getVersion (s : MState) : Rat × MState × List Event :=
  match _getControl s with
  | (c, s1, tr) => (c.version, s1, tr)

/-- Public `Migrations.unlock()`: `update({_id:'control'}, {$set:{locked:false}})` —
no upsert, `version` and `lockedAt` untouched; returns the matched count. -/
def unlock (s : MState) : Nat × MState × List Event :=
  match s.store with
  | some c => (1, ⟨some ⟨c.version, false, c.lockedAt⟩, s.time⟩, [Event.unlockOnly])
  | none => (0, s, [])

/-- Models `Migrations._reset()`: registry back to the sentinel, control document removed. -/
def _reset (s : MState) : List MStep × MState := ([DefaultMigration], ⟨none, s.time⟩)

/-- The raw argument of `Migrations.add`: `version` is `none` when the field is not of
JS type number, `up`/`down` are `none` when not functions. -/
structure MigrationInput where
  version : Option Rat := none
  name : Option String := none
  up : Option StepBehavior := none
  down : Option StepBehavior := none
deriving DecidableEq, Repr

/-- One insertion step of a stable ascending-by-version sort: an element is placed
before the first element whose version is ≥ its own, so elements that compare equal
keep their original relative order. -/
def insertStep (x : MStep) : List MStep → List MStep
  | [] => [x]
  | y :: ys => if x.version ≤ y.version then x :: y :: ys else y :: insertStep x ys

/-- Stable insertion sort, modeling `this._list.sort((a, b) => a.version > b.version ?
1 : b.version > a.version ? -1 : 0)` — `Array.prototype.sort` is stable and this
comparator orders ascending by `version`. -/
def sortSteps : List MStep → List MStep
  | [] => []
  | x :: xs => insertStep x (sortSteps xs)

/-- Models `Migrations.add(migration)`: requires `up` to be a function and `version` to be a
number `> 0`; on success freezes the step (`Object.freeze`; intrinsic in Lean), pushes
it, and re-sorts the registry with the stable ascending comparator. -/
def add (list : List MStep) (input : MigrationInput) : Except MigErr (List MStep) :=
  match input.up with
  | none => Except.error MigErr.upNotFunction
  | some _ =>
      match input.version with
      | none => Except.error MigErr.versionNotNumber
      | some v =>
          if v ≤ 0 then Except.error MigErr.versionNotPositive
          else
            Except.ok (sortSteps (list ++
              [{ version := v, name := input.name, up := input.up, down := input.down }]))

/-- The step record a successful `add` would register for this input (`none` when `add`
rejects the input). -/
def mkStepOfInput (input : MigrationInput) : Option MStep :=
  match input.up, input.version with
  | some _, some v =>
      if v ≤ 0 then none
      else some { version := v, name := input.name, up := input.up, down := input.down }
  | _, _ => none

/-- Folding a sequence of `add` calls over a registry; any failure aborts. -/
def addAll (list : List MStep) : List MigrationInput → Except MigErr (List MStep)
  | [] => Except.ok list
  | input :: rest =>
      match add list input with
      | Except.ok l1 => addAll l1 rest
      | Except.error e => Except.error e

/-!
Two-process interleaving model for the locking protocol.

Each process runs `migrateTo('latest')`, i.e. `_migrateTo(target)` with
`target = latestVersion list` and `rerun` false.  Per §5 of the collection contract,
every `await`ed store operation (`findOneAsync`, `updateAsync`) and every `await`ed
step body is one atomic action, and control can pass to the other process at exactly
these suspension points.  `TPhase` is `_migrateTo`'s body cut at those points; pure
computation between two awaits (the fast-path test, `startIdx`/`endIdx` resolution,
the `currentVersion = ...` assignments, loop-index bookkeeping) is folded into the
transition of the adjacent atomic action, which does not change what any other
process can observe.
-/

/-- Phase of one process executing `_migrateTo(target)` (non-rerun), between atomic
store operations / step-body awaits. -/
inductive TPhase
  | start
  | needCreate
  | gotControl (cv : Rat)
  | stepPhase (d : Dir) (cv : Rat) (i endIdx : Nat)
  | ckptPhase (d : Dir) (cv : Rat) (i endIdx : Nat)
  | unlockPhase (failed : Bool) (cv : Rat)
  | doneFast
  | doneDenied
  | doneOk
  | doneErr
  | doneErrLockHeld
deriving DecidableEq, Repr

/-- One atomic action of a process in phase `p` against the shared store, mirroring
`_migrateTo` line by line: the control read (creating the default document on a miss),
the fast-path return, the single conditional-update `lock()` (with the pure
`startIdx`/`endIdx` resolution and direction choice folded in; a missing version throws
with the lock held — `doneErrLockHeld`), one step-body invocation, one checkpoint
write, and the `finally` unlock write. -/
def threadStep (list : List MStep) (target : Rat) (p : TPhase) (s : MState) :
    TPhase × MState × List Event :=
  match p with
  | TPhase.start =>
      match s.store with
      | some c => (TPhase.gotControl c.version, s, [])
      | none => (TPhase.needCreate, s, [])
  | TPhase.needCreate =>
      let r := _setControl 0 false s
      (TPhase.gotControl 0, r.1, r.2)
  | TPhase.gotControl cv =>
      if cv = target then (TPhase.doneFast, s, [])
      else
        match lock s with
        | (false, s1, tr) => (TPhase.doneDenied, s1, tr)
        | (true, s1, tr) =>
            match _findIndexByVersion list (some cv), _findIndexByVersion list (some target) with
            | Except.ok startIdx, Except.ok endIdx =>
                if cv < target then
                  if startIdx < endIdx then (TPhase.stepPhase Dir.up cv startIdx endIdx, s1, tr)
                  else (TPhase.unlockPhase false cv, s1, tr)
                else
                  if endIdx < startIdx then (TPhase.stepPhase Dir.down cv startIdx endIdx, s1, tr)
                  else (TPhase.unlockPhase false cv, s1, tr)
            | _, _ => (TPhase.doneErrLockHeld, s1, tr)
  | TPhase.stepPhase d cv i endIdx =>
      let idx := match d with | Dir.up => i + 1 | Dir.down => i
      let m := list.getD idx DefaultMigration
      match dirFun m d with
      | none =>
          let r := _setControl cv false s
          (TPhase.unlockPhase true cv, r.1, r.2)
      | some StepBehavior.ok =>
          let cv1 := match d with
            | Dir.up => m.version
            | Dir.down => (list.getD (i - 1) DefaultMigration).version
          (TPhase.ckptPhase d cv1 i endIdx, s, [Event.stepRun d m [m]])
      | some (StepBehavior.throws _) =>
          (TPhase.unlockPhase true cv, s, [Event.stepRun d m [m]])
  | TPhase.ckptPhase d cv i endIdx =>
      let r := _setControl cv true s
      match d with
      | Dir.up =>
          if i + 1 < endIdx then (TPhase.stepPhase Dir.up cv (i + 1) endIdx, r.1, r.2)
          else (TPhase.unlockPhase false cv, r.1, r.2)
      | Dir.down =>
          if endIdx < i - 1 then (TPhase.stepPhase Dir.down cv (i - 1) endIdx, r.1, r.2)
          else (TPhase.unlockPhase false cv, r.1, r.2)
  | TPhase.unlockPhase failed cv =>
      let r := _setControl cv false s
      (if failed then TPhase.doneErr else TPhase.doneOk, r.1, r.2)
  | TPhase.doneFast => (p, s, [])
  | TPhase.doneDenied => (p, s, [])
  | TPhase.doneOk => (p, s, [])
  | TPhase.doneErr => (p, s, [])
  | TPhase.doneErrLockHeld => (p, s, [])

/-- Shared store plus the two processes' phases and per-process event traces. -/
structure Config where
  shared : MState
  pa : TPhase
  pb : TPhase
  ta : List Event
  tb : List Event
deriving DecidableEq, Repr

/-- Run one atomic action of process `b` (`who = true`) or `a` (`who = false`). -/
def stepThread (list : List MStep) (target : Rat) (who : Bool) (cfg : Config) : Config :=
  if who then
    match threadStep list target cfg.pb cfg.shared with
    | (p, s, tr) => { cfg with pb := p, shared := s, tb := cfg.tb ++ tr }
  else
    match threadStep list target cfg.pa cfg.shared with
    | (p, s, tr) => { cfg with pa := p, shared := s, ta := cfg.ta ++ tr }

/-- Run a whole interleaving (schedule): each entry picks which process acts next. -/
def runSched (list : List MStep) (target : Rat) : List Bool → Config → Config
  | [], cfg => cfg
  | who :: rest, cfg => runSched list target rest (stepThread list target who cfg)

/-- The process currently holds the lock and may still invoke step bodies. -/
def inRegion : TPhase → Bool
  | TPhase.stepPhase _ _ _ _ => true
  | TPhase.ckptPhase _ _ _ _ => true
  | _ => false

/-- The process has not yet attempted (or is yet to attempt) the lock. -/
def preLock : TPhase → Bool
  | TPhase.start => true
  | TPhase.needCreate => true
  | TPhase.gotControl _ => true
  | _ => false

/-- Phases whose whole history is read-only: not past a successful lock. -/
def quiet : TPhase → Bool
  | TPhase.start => true
  | TPhase.needCreate => true
  | TPhase.gotControl _ => true
  | TPhase.doneFast => true
  | TPhase.doneDenied => true
  | _ => false

/-- Is this event a step-body invocation? -/
def isStepRun : Event → Bool
  | Event.stepRun _ _ _ => true
  | _ => false

/-- Does this event write the store? (a successful lock attempt is the conditional
update applying its modifier; a denied one matches nothing and writes nothing). -/
def isWrite : Event → Bool
  | Event.setControl _ _ => true
  | Event.lockAttempt acquired => acquired
  | Event.unlockOnly => true
  | Event.stepRun _ _ _ => false

/-- An event that neither runs a step nor writes the store. -/
def evClean (e : Event) : Bool := !isStepRun e && !isWrite e

/-- A trace containing no step invocation and no store write. -/
def cleanTrace (tr : List Event) : Bool := tr.all evClean

/-- Is the control document currently locked? -/
def lockedNow (s : MState) : Bool :=
  match s.store with
  | some c => c.locked
  | none => false

/-- Concrete step at version 1 with working `up` and `down`. -/
def stepOne : MStep := { version := 1, up := some StepBehavior.ok, down := some StepBehavior.ok }

/-- Concrete step at version 2 with working `up` and `down`. -/
def stepTwo : MStep := { version := 2, up := some StepBehavior.ok, down := some StepBehavior.ok }

/-- Concrete step at version 3 with working `up` and `down`. -/
def stepThree : MStep := { version := 3, up := some StepBehavior.ok, down := some StepBehavior.ok }

/-- Registry with steps {1, 2, 3} after the sentinel. -/
def reg123 : List MStep := [DefaultMigration, stepOne, stepTwo, stepThree]

/-- Step at version 2 whose `up` body rejects with error token 42. -/
def stepTwoBad : MStep :=
  { version := 2, up := some (StepBehavior.throws 42), down := some StepBehavior.ok }

/-- Registry {1, 2, 3} in which the step at version 2 fails on `up`. -/
def reg123bad : List MStep := [DefaultMigration, stepOne, stepTwoBad, stepThree]

/-- The JS number 1.5 (= 3/2), given directly in lowest terms. -/
def threeHalves : Rat := ⟨3, 2, by decide, by decide⟩

/-- Did this call of `migrateTo`/`_migrateTo` throw the `Cannot migrate using invalid
command` error? -/
def resultIsInvalidCommand : Except MigErr Unit → Bool
  | Except.error (MigErr.invalidCommand _) => true
  | _ => false

/-- The registry ordering invariant: versions ascending (duplicates kept adjacent). -/
def sortedByVersion (l : List MStep) : Prop :=
  List.Pairwise (fun x y => x.version ≤ y.version) l

/-- Every step invocation recorded in an event passes exactly one argument, the step
object itself (`migration[direction](migration)`). -/
def stepArgsSelf : Event → Bool
  | Event.stepRun _ st args => args == [st]
  | _ => true

/-- Initial configuration of the two-process model: both processes about to start,
the shared control document present. -/
def initConfig (c0 : ControlRecord) (t0 : Nat) : Config :=
  { shared := ⟨some c0, t0⟩, pa := TPhase.start, pb := TPhase.start, ta := [], tb := [] }

/-- Invariant of the two-process interleaving: the control document stays present (so
the create-on-miss path is never taken), at most one process is in the step-running
region, the lock is held whenever a process in the region coexists with one that has
not yet attempted the lock, and a process that never got past the lock has a read-only
trace. -/
def LockInv (cfg : Config) : Prop :=
  cfg.shared.store.isSome = true ∧
  cfg.pa ≠ TPhase.needCreate ∧
  cfg.pb ≠ TPhase.needCreate ∧
  ¬(inRegion cfg.pa = true ∧ inRegion cfg.pb = true) ∧
  (inRegion cfg.pa = true → preLock cfg.pb = true → lockedNow cfg.shared = true) ∧
  (inRegion cfg.pb = true → preLock cfg.pa = true → lockedNow cfg.shared = true) ∧
  (quiet cfg.pa = true → cleanTrace cfg.ta = true) ∧
  (quiet cfg.pb = true → cleanTrace cfg.tb = true)

/-- Exchange the two processes of a configuration (they run the same program, so the
step relation is symmetric under this swap). -/
def swapConfig (cfg : Config) : Config :=
  { shared := cfg.shared, pa := cfg.pb, pb := cfg.pa, ta := cfg.tb, tb := cfg.ta }

/-- Sanity anchor for the interleaving model: when one process runs alone to
completion, its trace and the final store state are exactly those of `_migrateTo`. -/
theorem threadModel_agrees_solo :
    (runSched reg123 (latestVersion reg123)
        [false, false, false, false, false, false, false, false, false, false]
        (initConfig ⟨0, false, 0⟩ 0)).pa = TPhase.doneOk ∧
    (runSched reg123 (latestVersion reg123)
        [false, false, false, false, false, false, false, false, false, false]
        (initConfig ⟨0, false, 0⟩ 0)).ta =
      (_migrateTo reg123 (some (latestVersion reg123)) false ⟨some ⟨0, false, 0⟩, 0⟩).2.2 ∧
    (runSched reg123 (latestVersion reg123)
        [false, false, false, false, false, false, false, false, false, false]
        (initConfig ⟨0, false, 0⟩ 0)).shared =
      (_migrateTo reg123 (some (latestVersion reg123)) false ⟨some ⟨0, false, 0⟩, 0⟩).2.1 := by
  decide

/-- C1: starting at stored version 0 with steps {1,2,3}, `migrateTo('latest')` runs
`up` on 1, then 2, then 3, in that order, writing the checkpoint
`{locked: true, version: just-applied}` after every single step, and ends at stored
version 3; starting at stored version 3, `migrateTo(1)` runs `down` on 3, then `down`
on 2, ending at stored version 1. -/
theorem c1_sequential_traversal :
    migrateTo reg123 (Command.str "latest") ⟨some ⟨0, false, 0⟩, 0⟩ =
      (Except.ok (), ⟨some ⟨3, false, 4⟩, 5⟩,
        [Event.lockAttempt true,
         Event.stepRun Dir.up stepOne [stepOne], Event.setControl 1 true,
         Event.stepRun Dir.up stepTwo [stepTwo], Event.setControl 2 true,
         Event.stepRun Dir.up stepThree [stepThree], Event.setControl 3 true,
         Event.setControl 3 false], false) ∧
    migrateTo reg123 (Command.num 1) ⟨some ⟨3, false, 0⟩, 0⟩ =
      (Except.ok (), ⟨some ⟨1, false, 3⟩, 4⟩,
        [Event.lockAttempt true,
         Event.stepRun Dir.down stepThree [stepThree], Event.setControl 2 true,
         Event.stepRun Dir.down stepTwo [stepTwo], Event.setControl 1 true,
         Event.setControl 1 false], false) := by
  decide

/-- C2: when the step body at version 2 throws (token 42) while migrating from 0
toward 3, the run invokes `up` on 1 and then on 2 (once, never retried; step 3 is never
invoked), the final control record is `{version: 1, locked: false}`, the cleanup unlock
write is the last event before returning, and the original error is rethrown. -/
theorem c2_failure_atomicity :
    migrateTo reg123bad (Command.str "latest") ⟨some ⟨0, false, 0⟩, 0⟩ =
      (Except.error (MigErr.stepThrew 42), ⟨some ⟨1, false, 2⟩, 3⟩,
        [Event.lockAttempt true,
         Event.stepRun Dir.up stepOne [stepOne], Event.setControl 1 true,
         Event.stepRun Dir.up stepTwoBad [stepTwoBad],
         Event.setControl 1 false], false) := by
  decide

/-- C4 counterexample: with a registry holding only the sentinel, `migrateTo('latest')`
does not fail with `InvalidCommand` — it returns normally (the code checks
`_list.length === 0`, not "only the sentinel", and the sentinel is always present). -/
theorem c4_counterexample :
    migrateTo [DefaultMigration] (Command.str "latest") ⟨some ⟨0, false, 0⟩, 0⟩ =
      (Except.ok (), ⟨some ⟨0, false, 0⟩, 0⟩, [], false) := by
  decide

/-- C5 counterexample: `add` accepts a step whose version is the non-integer number
1.5 (the code only checks `typeof version === 'number'` and `version > 0`), while the
claim predicts an `InvalidStep` failure. -/
theorem c5_counterexample :
    add [DefaultMigration] { version := some threeHalves, up := some StepBehavior.ok } =
      Except.ok [DefaultMigration,
        { version := threeHalves, name := none, up := some StepBehavior.ok, down := none }] := by
  decide

/-- C3 counterexample: an interleaving of two concurrent `migrateTo('latest')` runs
from version 0 in which BOTH processes execute step functions: process b reads the
control record (version 0), process a then locks, runs all steps and unlocks, and
process b's subsequent lock attempt succeeds on the now-unlocked record, so b re-runs
the steps from its stale read.  This refutes "exactly one of them executes any step
function; the other observes tryLock denial". -/
theorem c3_counterexample :
    (runSched reg123 (latestVersion reg123)
        [true, false, false, false, false, false, false, false, false, false, true, true]
        (initConfig ⟨0, false, 0⟩ 0)).ta.any isStepRun = true ∧
    (runSched reg123 (latestVersion reg123)
        [true, false, false, false, false, false, false, false, false, false, true, true]
        (initConfig ⟨0, false, 0⟩ 0)).tb.any isStepRun = true := by
  decide

/-- C9: the public `unlock()` on any present control record clears `locked` and leaves
`version` (and `lockedAt`) unchanged. -/
theorem c9_manual_unlock_frame (s : MState) (c : ControlRecord) (hs : s.store = some c) :
    unlock s = (1, ⟨some ⟨c.version, false, c.lockedAt⟩, s.time⟩, [Event.unlockOnly]) := by
  simp [unlock, hs]

/-- C9 witness: unlocking a crashed (locked) record at version 2 yields
`locked = false` with version still 2. -/
theorem c9_manual_unlock_frame_witness :
    unlock ⟨some ⟨2, true, 7⟩, 9⟩ = (1, ⟨some ⟨2, false, 7⟩, 9⟩, [Event.unlockOnly]) :=
  c9_manual_unlock_frame ⟨some ⟨2, true, 7⟩, 9⟩ ⟨2, true, 7⟩ rfl

/-- Helper: the fast path of `_migrateTo` — control present with version equal to the
target and `rerun` false — returns immediately with no lock attempt and no write. -/
theorem fastPath_noop (list : List MStep) (v : Rat) (c : ControlRecord) (s : MState)
    (hs : s.store = some c) (hv : v = c.version) :
    _migrateTo list (some v) false s = (Except.ok (), s, []) := by
  subst hv
  simp [_migrateTo, _getControl, hs]

/-- C7: with the control record present and already at the target version and `rerun`
false, `_migrateTo` returns having invoked no step, attempted no lock and performed no
write (its state is returned unchanged and its trace is empty); consequently a second
`migrateTo('latest')` when the stored version already equals the latest registered
version is a complete no-op. -/
theorem c7_fast_path_idempotence :
    (∀ (list : List MStep) (v : Rat) (c : ControlRecord) (s : MState),
        s.store = some c → v = c.version →
        _migrateTo list (some v) false s = (Except.ok (), s, [])) ∧
    (∀ (list : List MStep) (c : ControlRecord) (s : MState),
        list ≠ [] → s.store = some c → c.version = latestVersion list →
        migrateTo list (Command.str "latest") s = (Except.ok (), s, [], false)) := by
  refine ⟨fun list v c s hs hv => fastPath_noop list v c s hs hv, ?_⟩
  intro list c s hl hs hv
  have h0 : ¬(("latest" : String) = "" ∨ list.length = 0) := by
    simp [List.length_eq_zero, hl]
  have hparts : splitOnComma "latest" = ["latest"] := rfl
  simp only [migrateTo, if_neg h0, hparts]
  rw [fastPath_noop list (latestVersion list) c s hs hv.symm]
  rfl

/-- C7 witness: at version 3 (= latest of {1,2,3}), both the private fast path and a
repeated `migrateTo('latest')` do nothing. -/
theorem c7_fast_path_idempotence_witness :
    _migrateTo reg123 (some 3) false ⟨some ⟨3, false, 0⟩, 0⟩ =
      (Except.ok (), ⟨some ⟨3, false, 0⟩, 0⟩, []) ∧
    migrateTo reg123 (Command.str "latest") ⟨some ⟨3, false, 0⟩, 0⟩ =
      (Except.ok (), ⟨some ⟨3, false, 0⟩, 0⟩, [], false) :=
  ⟨c7_fast_path_idempotence.1 reg123 3 ⟨3, false, 0⟩ ⟨some ⟨3, false, 0⟩, 0⟩ rfl (by decide),
   c7_fast_path_idempotence.2 reg123 ⟨3, false, 0⟩ ⟨some ⟨3, false, 0⟩, 0⟩ (by decide) rfl
     (by decide)⟩

/-- C8: on the rerun path (lock free so it is acquired), `_migrateTo(v, true)` runs
exactly the `up` body of the step at version `v`, once, whatever the relation between
the stored and target versions; the final unlock writes back the version read at the
start of the call, so the stored version is unchanged, and the step body's outcome
(normal return or its own error) is the call's outcome. -/
theorem c8_rerun_semantics (list : List MStep) (v : Rat) (idx : Nat) (c : ControlRecord)
    (s : MState) (b : StepBehavior)
    (hs : s.store = some c) (hl : c.locked = false)
    (hidx : _findIndexByVersion list (some v) = Except.ok idx)
    (hup : (list.getD idx DefaultMigration).up = some b) :
    _migrateTo list (some v) true s =
      ((match b with
        | StepBehavior.ok => Except.ok ()
        | StepBehavior.throws e => Except.error (MigErr.stepThrew e)),
       ⟨some ⟨c.version, false, s.time + 1⟩, s.time + 2⟩,
       [Event.lockAttempt true,
        Event.stepRun Dir.up (list.getD idx DefaultMigration) [list.getD idx DefaultMigration],
        Event.setControl c.version false]) := by
  rw [List.getD_eq_getElem?_getD] at hup
  cases b with
  | ok =>
      simp [_migrateTo, _getControl, hs, lock, hl, hidx, migrate, dirFun, hup, _setControl,
        List.getD_eq_getElem?_getD]
  | throws e =>
      simp [_migrateTo, _getControl, hs, lock, hl, hidx, migrate, dirFun, hup, _setControl,
        List.getD_eq_getElem?_getD]

/-- C8 witness: at stored version 2, rerunning version 2 of {1,2,3} invokes its `up`
once and leaves the stored version at 2. -/
theorem c8_rerun_semantics_witness :
    _migrateTo reg123 (some 2) true ⟨some ⟨2, false, 0⟩, 0⟩ =
      (Except.ok (), ⟨some ⟨2, false, 1⟩, 2⟩,
       [Event.lockAttempt true, Event.stepRun Dir.up stepTwo [stepTwo],
        Event.setControl 2 false]) :=
  c8_rerun_semantics reg123 2 2 ⟨2, false, 0⟩ ⟨some ⟨2, false, 0⟩, 0⟩ StepBehavior.ok
    rfl rfl (by decide) (by decide)

/-- C5 amended: `add` fails exactly when `up` is not a function, or `version` is not a
number, or `version ≤ 0`; being a non-integer number (such as 1.5) is accepted. -/
theorem c5_amended_add_validation (list : List MStep) (input : MigrationInput) :
    (∃ e, add list input = Except.error e) ↔
      (input.up = none ∨ input.version = none ∨
        ∃ v, input.version = some v ∧ v ≤ 0) := by
  cases hu : input.up with
  | none => simp [add, hu]
  | some b =>
      cases hv : input.version with
      | none => simp [add, hu, hv]
      | some v =>
          by_cases h0 : v ≤ 0 <;> simp [add, hu, hv, h0]

/-- Helper: the only error of the registry index scan is version-not-found. -/
theorem findIndexFrom_error (version : Option Rat) :
    ∀ (l : List MStep) (i : Nat) (e : MigErr),
      findIndexFrom version l i = Except.error e → e = MigErr.versionNotFound version := by
  intro l
  induction l with
  | nil =>
      intro i e h
      simp only [findIndexFrom, Except.error.injEq] at h
      exact h.symm
  | cons m rest ih =>
      intro i e h
      by_cases hm : some m.version = version
      · simp only [findIndexFrom, if_pos hm] at h
        exact absurd h (by simp)
      · simp only [findIndexFrom, if_neg hm] at h
        exact ih (i + 1) e h

/-- Helper: the only error of `_findIndexByVersion` is version-not-found. -/
theorem _findIndexByVersion_error (list : List MStep) (version : Option Rat) (e : MigErr)
    (h : _findIndexByVersion list version = Except.error e) :
    e = MigErr.versionNotFound version :=
  findIndexFrom_error version list 0 e h

/-- Helper: `migrate` never throws the invalid-command error. -/
theorem migrate_not_invalidCommand (list : List MStep) (cv : Rat) (d : Dir) (idx : Nat)
    (s : MState) : resultIsInvalidCommand (migrate list cv d idx s).1 = false := by
  simp only [migrate]
  split <;> rfl

/-- Helper: the up loop never throws the invalid-command error. -/
theorem runUp_not_invalidCommand (list : List MStep) :
    ∀ (fuel i : Nat) (cv : Rat) (s : MState),
      resultIsInvalidCommand (runUp list fuel i cv s).1 = false := by
  intro fuel
  induction fuel with
  | zero => intro i cv s; rfl
  | succ n ih =>
      intro i cv s
      rcases hm : migrate list cv Dir.up (i + 1) s with ⟨res, s1, tr1⟩
      have h2 := migrate_not_invalidCommand list cv Dir.up (i + 1) s
      rw [hm] at h2
      simp only [runUp, hm]
      cases res with
      | error e => simpa using h2
      | ok u =>
          rcases hr : runUp list n (i + 1) ((list.getD (i + 1) DefaultMigration).version)
              (_setControl ((list.getD (i + 1) DefaultMigration).version) true s1).1 with
            ⟨res2, cvf, sf, tr3⟩
          have h3 := ih (i + 1) ((list.getD (i + 1) DefaultMigration).version)
              (_setControl ((list.getD (i + 1) DefaultMigration).version) true s1).1
          rw [hr] at h3
          simp only [hr]
          simpa using h3

/-- Helper: the down loop never throws the invalid-command error. -/
theorem runDown_not_invalidCommand (list : List MStep) :
    ∀ (fuel i : Nat) (cv : Rat) (s : MState),
      resultIsInvalidCommand (runDown list fuel i cv s).1 = false := by
  intro fuel
  induction fuel with
  | zero => intro i cv s; rfl
  | succ n ih =>
      intro i cv s
      rcases hm : migrate list cv Dir.down i s with ⟨res, s1, tr1⟩
      have h2 := migrate_not_invalidCommand list cv Dir.down i s
      rw [hm] at h2
      simp only [runDown, hm]
      cases res with
      | error e => simpa using h2
      | ok u =>
          rcases hr : runDown list n (i - 1) ((list.getD (i - 1) DefaultMigration).version)
              (_setControl ((list.getD (i - 1) DefaultMigration).version) true s1).1 with
            ⟨res2, cvf, sf, tr3⟩
          have h3 := ih (i - 1) ((list.getD (i - 1) DefaultMigration).version)
              (_setControl ((list.getD (i - 1) DefaultMigration).version) true s1).1
          rw [hr] at h3
          simp only [hr]
          simpa using h3

/-- Helper: `_migrateTo` never throws the invalid-command error (its errors are
version-not-found, direction-unsupported, or a step body's own error). -/
theorem _migrateTo_not_invalidCommand (list : List MStep) (version : Option Rat)
    (rerun : Bool) (s : MState) :
    resultIsInvalidCommand (_migrateTo list version rerun s).1 = false := by
  rcases hg : _getControl s with ⟨control, s1, tr1⟩
  simp only [_migrateTo, hg]
  by_cases hfast : (!rerun && (version == some control.version)) = true
  · simp only [hfast, if_true]
    rfl
  · simp only [Bool.not_eq_true] at hfast
    rcases hl : lock s1 with ⟨isLocked, s2, tr2⟩
    simp only [hfast, hl, if_false]
    cases isLocked with
    | false => rfl
    | true =>
        simp only [Bool.true_eq_false, if_false]
        cases rerun with
        | true =>
            simp only [if_true]
            cases hidx : _findIndexByVersion list version with
            | error e =>
                have he := _findIndexByVersion_error list version e hidx
                subst he
                rfl
            | ok idx =>
                rcases hm : migrate list control.version Dir.up idx s2 with ⟨res, s3, tr3⟩
                have h2 := migrate_not_invalidCommand list control.version Dir.up idx s2
                rw [hm] at h2
                simp only [hm]
                simpa using h2
        | false =>
            simp only [Bool.false_eq_true, if_false]
            cases hstart : _findIndexByVersion list (some control.version) with
            | error e =>
                have he := _findIndexByVersion_error list (some control.version) e hstart
                subst he
                rfl
            | ok startIdx =>
                cases hend : _findIndexByVersion list version with
                | error e =>
                    have he := _findIndexByVersion_error list version e hend
                    subst he
                    rfl
                | ok endIdx =>
                    rcases hr : (if jsLt control.version version then
                          runUp list (endIdx - startIdx) startIdx control.version s2
                        else
                          runDown list (startIdx - endIdx) startIdx control.version s2) with
                      ⟨res, cvf, s3, tr3⟩
                    simp only [hr]
                    by_cases hlt : jsLt control.version version = true
                    · rw [if_pos hlt] at hr
                      have h3 := runUp_not_invalidCommand list (endIdx - startIdx) startIdx
                          control.version s2
                      rw [hr] at h3
                      simpa using h3
                    · rw [if_neg hlt] at hr
                      have h3 := runDown_not_invalidCommand list (startIdx - endIdx) startIdx
                          control.version s2
                      rw [hr] at h3
                      simpa using h3

/-- C4 amended: `migrateTo` fails with the invalid-command error exactly when the
command is `undefined` or the empty string, or the registry list is empty — not when
the registry holds only the sentinel (the sentinel-only registry has length 1 and is
accepted). -/
theorem c4_amended_invalid_command (list : List MStep) (command : Command) (s : MState) :
    resultIsInvalidCommand (migrateTo list command s).1 = true ↔
      (command = Command.undef ∨ command = Command.str "" ∨ list = []) := by
  constructor
  · intro h
    by_contra hc
    push_neg at hc
    obtain ⟨h1, h2, h3⟩ := hc
    have hlen : ¬ list.length = 0 := by simpa [List.length_eq_zero] using h3
    cases command with
    | undef => exact h1 rfl
    | num q =>
        rcases hm : _migrateTo list (parseIntOfNum q) false s with ⟨res, s1, tr⟩
        have hni := _migrateTo_not_invalidCommand list (parseIntOfNum q) false s
        rw [hm] at hni
        simp only [migrateTo, if_neg hlen, hm] at h
        simp only [hni] at h
        exact Bool.false_ne_true h
    | str c =>
        have hguard : ¬(c = "" ∨ list.length = 0) := by
          rintro (rfl | hz)
          · exact h2 rfl
          · exact hlen hz
        simp only [migrateTo, if_neg hguard] at h
        by_cases hlat : (splitOnComma c).getD 0 "" = "latest"
        · rcases hm : _migrateTo list (some (latestVersion list)) false s with ⟨res, s1, tr⟩
          have hni := _migrateTo_not_invalidCommand list (some (latestVersion list)) false s
          rw [hm] at hni
          simp only [if_pos hlat, hm, hni] at h
          exact Bool.false_ne_true h
        · rcases hm : _migrateTo list
              (((parseIntJS ((splitOnComma c).getD 0 "")).map (fun n => (n : Rat))))
              ((splitOnComma c)[1]? == some "rerun") s with ⟨res, s1, tr⟩
          have hni := _migrateTo_not_invalidCommand list
              (((parseIntJS ((splitOnComma c).getD 0 "")).map (fun n => (n : Rat))))
              ((splitOnComma c)[1]? == some "rerun") s
          rw [hm] at hni
          simp only [if_neg hlat, hm, hni] at h
          exact Bool.false_ne_true h
  · rintro (rfl | rfl | rfl)
    · rfl
    · rfl
    · cases command with
      | undef => rfl
      | num q => simp [migrateTo, resultIsInvalidCommand]
      | str c => simp [migrateTo, resultIsInvalidCommand]

/-- Helper: membership in an insertion. -/
theorem mem_insertStep {z x : MStep} :
    ∀ {l : List MStep}, z ∈ insertStep x l ↔ z = x ∨ z ∈ l := by
  intro l
  induction l with
  | nil => simp [insertStep]
  | cons y ys ih =>
      by_cases h : x.version ≤ y.version
      · simp [insertStep, h]
      · simp only [insertStep, if_neg h, List.mem_cons, ih]
        tauto

/-- Helper: insertion preserves the ascending-by-version invariant. -/
theorem sortedByVersion_insertStep {x : MStep} :
    ∀ {l : List MStep}, sortedByVersion l → sortedByVersion (insertStep x l) := by
  intro l
  induction l with
  | nil => intro _; simp [insertStep, sortedByVersion]
  | cons y ys ih =>
      intro h
      rcases List.pairwise_cons.mp h with ⟨hy, hys⟩
      by_cases hle : x.version ≤ y.version
      · simp only [insertStep, if_pos hle]
        refine List.pairwise_cons.mpr ⟨?_, h⟩
        intro z hz
        rcases List.mem_cons.mp hz with rfl | hz2
        · exact hle
        · exact le_trans hle (hy z hz2)
      · simp only [insertStep, if_neg hle]
        refine List.pairwise_cons.mpr ⟨?_, ih hys⟩
        intro z hz
        rcases mem_insertStep.mp hz with rfl | hz2
        · exact le_of_not_le hle
        · exact hy z hz2

/-- Helper: the stable sort sorts ascending by version. -/
theorem sortedByVersion_sortSteps : ∀ (l : List MStep), sortedByVersion (sortSteps l)
  | [] => by simp [sortSteps, sortedByVersion]
  | x :: xs => sortedByVersion_insertStep (sortedByVersion_sortSteps xs)

/-- Helper (stability, inserted element): inserting `x` with version `v` puts it in
front of the other `v`-elements it was prepended to. -/
theorem filter_insertStep_pos {x : MStep} {v : Rat} (hx : x.version = v) :
    ∀ (l : List MStep),
      (insertStep x l).filter (fun st => st.version == v) =
        x :: l.filter (fun st => st.version == v) := by
  intro l
  induction l with
  | nil => simp [insertStep, hx]
  | cons y ys ih =>
      by_cases hle : x.version ≤ y.version
      · rw [insertStep, if_pos hle]
        simp [List.filter_cons, hx]
      · have hlt : y.version < x.version := lt_of_not_le hle
        have hy : ¬ y.version = v := by rw [← hx]; exact ne_of_lt hlt
        rw [insertStep, if_neg hle]
        simp [List.filter_cons, hy, ih]

/-- Helper (stability, other versions): inserting an element of a different version
does not disturb the `v`-elements. -/
theorem filter_insertStep_neg {x : MStep} {v : Rat} (hx : ¬ x.version = v) :
    ∀ (l : List MStep),
      (insertStep x l).filter (fun st => st.version == v) =
        l.filter (fun st => st.version == v) := by
  intro l
  induction l with
  | nil => simp [insertStep, hx]
  | cons y ys ih =>
      by_cases hle : x.version ≤ y.version
      · simp [insertStep, hle, List.filter_cons, hx]
      · simp [insertStep, hle, List.filter_cons, ih]

/-- Helper: the sort is stable — for every version, the `v`-elements come out in their
input order. -/
theorem filter_sortSteps (v : Rat) :
    ∀ (l : List MStep),
      (sortSteps l).filter (fun st => st.version == v) =
        l.filter (fun st => st.version == v) := by
  intro l
  induction l with
  | nil => rfl
  | cons x xs ih =>
      by_cases hx : x.version = v
      · rw [sortSteps, filter_insertStep_pos hx, ih, List.filter_cons, if_pos (by simp [hx])]
      · rw [sortSteps, filter_insertStep_neg hx, ih, List.filter_cons, if_neg (by simp [hx])]

/-- Helper: a successful `add` appends exactly the constructed (frozen) step record and
re-sorts. -/
theorem add_ok (list : List MStep) (input : MigrationInput) (l1 : List MStep)
    (h : add list input = Except.ok l1) :
    ∃ st, mkStepOfInput input = some st ∧ l1 = sortSteps (list ++ [st]) := by
  cases hu : input.up with
  | none => rw [add, hu] at h; exact absurd h (by simp)
  | some b =>
      cases hv : input.version with
      | none => simp only [add, hu, hv] at h; exact absurd h (by simp)
      | some v =>
          by_cases h0 : v ≤ 0
          · simp only [add, hu, hv, if_pos h0] at h
            exact absurd h (by simp)
          · simp only [add, hu, hv, if_neg h0, Except.ok.injEq] at h
            refine ⟨{ version := v, name := input.name, up := some b, down := input.down },
              ?_, h.symm⟩
            simp [mkStepOfInput, hu, hv, h0]

/-- Helper: every step a successful `add` constructs has a positive version. -/
theorem mkStepOfInput_pos {input : MigrationInput} {st : MStep}
    (h : mkStepOfInput input = some st) : 0 < st.version := by
  cases hu : input.up with
  | none => simp [mkStepOfInput, hu] at h
  | some b =>
      cases hv : input.version with
      | none => simp [mkStepOfInput, hu, hv] at h
      | some v =>
          by_cases h0 : v ≤ 0
          · simp [mkStepOfInput, hu, hv, h0] at h
          · simp only [mkStepOfInput, hu, hv, if_neg h0] at h
            cases h
            simpa using lt_of_not_le h0

/-- Helper: invariants of a whole sequence of successful `add` calls: the result is
sorted, and for every version the filtered subsequence equals the input order. -/
theorem addAll_ok_sorted_filter :
    ∀ (inputs : List MigrationInput) (l0 l : List MStep),
      sortedByVersion l0 → addAll l0 inputs = Except.ok l →
      sortedByVersion l ∧
        ∀ v, l.filter (fun st => st.version == v) =
          (l0 ++ inputs.filterMap mkStepOfInput).filter (fun st => st.version == v) := by
  intro inputs
  induction inputs with
  | nil =>
      intro l0 l h0 h
      simp only [addAll, Except.ok.injEq] at h
      subst h
      exact ⟨h0, fun v => by simp⟩
  | cons input rest ih =>
      intro l0 l h0 h
      simp only [addAll] at h
      cases ha : add l0 input with
      | error e => rw [ha] at h; exact absurd h (by simp)
      | ok l1 =>
          rw [ha] at h
          replace h : addAll l1 rest = Except.ok l := h
          obtain ⟨st, hst, rfl⟩ := add_ok l0 input l1 ha
          obtain ⟨hs, hf⟩ := ih (sortSteps (l0 ++ [st])) l (sortedByVersion_sortSteps _) h
          refine ⟨hs, fun v => ?_⟩
          rw [hf v, List.filterMap_cons, hst]
          rw [List.filter_append, filter_sortSteps, List.filter_append, List.filter_append]
          by_cases hv2 : st.version = v <;> simp [List.filter_cons, List.append_assoc, hv2]

/-- C6: after every sequence of successful `add` calls starting from the sentinel-only
registry, the registry is sorted ascending by version, the sentinel is still the first
element, and for every version `v` the `v`-steps appear exactly in insertion order —
the sort is stable and each registered step is exactly the record constructed (and
frozen) at `add` time. -/
theorem c6_registry_invariant (inputs : List MigrationInput) (l : List MStep)
    (h : addAll [DefaultMigration] inputs = Except.ok l) :
    sortedByVersion l ∧ l.head? = some DefaultMigration ∧
      ∀ v, l.filter (fun st => st.version == v) =
        (DefaultMigration :: inputs.filterMap mkStepOfInput).filter
          (fun st => st.version == v) := by
  obtain ⟨hs, hf⟩ := addAll_ok_sorted_filter inputs [DefaultMigration] l
      (by simp [sortedByVersion]) h
  have hfilter : ∀ v, l.filter (fun st => st.version == v) =
      (DefaultMigration :: inputs.filterMap mkStepOfInput).filter
        (fun st => st.version == v) := by
    intro v
    simpa using hf v
  have hFM : ∀ st ∈ inputs.filterMap mkStepOfInput, 0 < st.version := by
    intro st hst
    obtain ⟨input, _, hmk⟩ := List.mem_filterMap.mp hst
    exact mkStepOfInput_pos hmk
  have hzero : l.filter (fun st => st.version == (0 : Rat)) = [DefaultMigration] := by
    rw [hfilter 0, List.filter_cons, if_pos (by simp [DefaultMigration])]
    have : (inputs.filterMap mkStepOfInput).filter (fun st => st.version == (0 : Rat)) = [] := by
      rw [List.filter_eq_nil_iff]
      intro st hst
      have := hFM st hst
      simp [ne_of_gt this]
    rw [this]
  have hDmem : DefaultMigration ∈ l := by
    have : DefaultMigration ∈ l.filter (fun st => st.version == (0 : Rat)) := by
      rw [hzero]; exact List.mem_singleton_self _
    exact List.mem_of_mem_filter this
  have hnonneg : ∀ st ∈ l, 0 ≤ st.version := by
    intro st hst
    have hstf : st ∈ l.filter (fun s2 => s2.version == st.version) :=
      List.mem_filter.mpr ⟨hst, by simp⟩
    rw [hfilter st.version] at hstf
    rcases List.mem_cons.mp (List.mem_of_mem_filter hstf) with heq | hmem
    · rw [heq]; simp [DefaultMigration]
    · exact le_of_lt (hFM st hmem)
  refine ⟨hs, ?_, hfilter⟩
  cases hl : l with
  | nil => rw [hl] at hDmem; cases hDmem
  | cons hd tl =>
      rw [hl] at hs hzero hDmem hnonneg
      rcases List.pairwise_cons.mp hs with ⟨hhd, _⟩
      have hhd0 : hd.version = 0 := by
        have h1 : 0 ≤ hd.version := hnonneg hd (List.mem_cons_self hd tl)
        have h2 : hd.version ≤ 0 := by
          rcases List.mem_cons.mp hDmem with heq | hmem
          · rw [← heq]; simp [DefaultMigration]
          · have := hhd DefaultMigration hmem
            simpa [DefaultMigration] using this
        exact le_antisymm h2 h1
      rw [List.filter_cons, if_pos (by simp [hhd0])] at hzero
      have hhdD : hd = DefaultMigration := (List.cons_eq_cons.mp hzero).1
      simp [hhdD]

/-- C6 witness: adding version 2, then 1, then 2 again (named "b") yields the sorted
registry with the sentinel first and the two version-2 steps in insertion order. -/
theorem c6_registry_invariant_witness :
    sortedByVersion [DefaultMigration,
      { version := 1, name := none, up := some StepBehavior.ok, down := none },
      { version := 2, name := none, up := some StepBehavior.ok, down := none },
      { version := 2, name := some "b", up := some StepBehavior.ok, down := none }] ∧
    ([DefaultMigration,
      { version := 1, name := none, up := some StepBehavior.ok, down := none },
      { version := 2, name := none, up := some StepBehavior.ok, down := none },
      { version := 2, name := some "b", up := some StepBehavior.ok, down := none }] :
        List MStep).head? = some DefaultMigration ∧
    ([DefaultMigration,
      { version := 1, name := none, up := some StepBehavior.ok, down := none },
      { version := 2, name := none, up := some StepBehavior.ok, down := none },
      { version := 2, name := some "b", up := some StepBehavior.ok, down := none }] :
        List MStep).filter (fun st => st.version == (2 : Rat)) =
      (DefaultMigration ::
        ([{ version := some 2, name := none, up := some StepBehavior.ok, down := none },
          { version := some 1, name := none, up := some StepBehavior.ok, down := none },
          { version := some 2, name := some "b", up := some StepBehavior.ok, down := none }] :
            List MigrationInput).filterMap mkStepOfInput).filter
        (fun st => st.version == (2 : Rat)) := by
  have h := c6_registry_invariant
    [{ version := some 2, name := none, up := some StepBehavior.ok, down := none },
     { version := some 1, name := none, up := some StepBehavior.ok, down := none },
     { version := some 2, name := some "b", up := some StepBehavior.ok, down := none }]
    [DefaultMigration,
     { version := 1, name := none, up := some StepBehavior.ok, down := none },
     { version := 2, name := none, up := some StepBehavior.ok, down := none },
     { version := 2, name := some "b", up := some StepBehavior.ok, down := none }]
    (by decide)
  exact ⟨h.1, h.2.1, h.2.2 2⟩

/-- Helper: every event emitted by `_getControl` satisfies `stepArgsSelf`. -/
theorem stepArgsSelf_getControl (s : MState) :
    ∀ e ∈ (_getControl s).2.2, stepArgsSelf e = true := by
  intro e he
  cases hs : s.store with
  | some c => simp [_getControl, hs] at he
  | none =>
      simp only [_getControl, hs, _setControl, List.mem_singleton] at he
      subst he
      rfl

/-- Helper: every event emitted by `lock` satisfies `stepArgsSelf`. -/
theorem stepArgsSelf_lock (s : MState) :
    ∀ e ∈ (lock s).2.2, stepArgsSelf e = true := by
  intro e he
  cases hs : s.store with
  | none =>
      simp only [lock, hs, List.mem_singleton] at he
      subst he
      rfl
  | some c =>
      cases hc : c.locked <;>
        simp only [lock, hs, hc, Bool.false_eq_true, if_false, if_true,
          List.mem_singleton] at he <;>
        subst he <;> rfl

/-- Helper: every event emitted by `migrate` satisfies `stepArgsSelf` — in particular
the one step invocation it can emit passes `[migration]` as the argument list. -/
theorem stepArgsSelf_migrate (list : List MStep) (cv : Rat) (d : Dir) (idx : Nat)
    (s : MState) : ∀ e ∈ (migrate list cv d idx s).2.2, stepArgsSelf e = true := by
  intro e he
  simp only [migrate] at he
  split at he <;> simp only [_setControl, List.mem_singleton] at he <;> subst he <;> simp [stepArgsSelf]

/-- Helper: every event emitted by the up loop satisfies `stepArgsSelf`. -/
theorem stepArgsSelf_runUp (list : List MStep) :
    ∀ (fuel i : Nat) (cv : Rat) (s : MState),
      ∀ e ∈ (runUp list fuel i cv s).2.2.2, stepArgsSelf e = true := by
  intro fuel
  induction fuel with
  | zero => intro i cv s e he; simp [runUp] at he
  | succ n ih =>
      intro i cv s e he
      rcases hm : migrate list cv Dir.up (i + 1) s with ⟨res, s1, tr1⟩
      have hmig := stepArgsSelf_migrate list cv Dir.up (i + 1) s
      rw [hm] at hmig
      simp only [runUp, hm] at he
      cases res with
      | error e2 => exact hmig e he
      | ok u =>
          rcases hr : runUp list n (i + 1) ((list.getD (i + 1) DefaultMigration).version)
              (_setControl ((list.getD (i + 1) DefaultMigration).version) true s1).1 with
            ⟨res2, cvf, sf, tr3⟩
          have h3 := ih (i + 1) ((list.getD (i + 1) DefaultMigration).version)
              (_setControl ((list.getD (i + 1) DefaultMigration).version) true s1).1
          rw [hr] at h3
          simp only [hr, List.mem_append] at he
          rcases he with (he1 | he2) | he3
          · exact hmig e he1
          · simp only [_setControl, List.mem_singleton] at he2
            subst he2
            rfl
          · exact h3 e he3

/-- Helper: every event emitted by the down loop satisfies `stepArgsSelf`. -/
theorem stepArgsSelf_runDown (list : List MStep) :
    ∀ (fuel i : Nat) (cv : Rat) (s : MState),
      ∀ e ∈ (runDown list fuel i cv s).2.2.2, stepArgsSelf e = true := by
  intro fuel
  induction fuel with
  | zero => intro i cv s e he; simp [runDown] at he
  | succ n ih =>
      intro i cv s e he
      rcases hm : migrate list cv Dir.down i s with ⟨res, s1, tr1⟩
      have hmig := stepArgsSelf_migrate list cv Dir.down i s
      rw [hm] at hmig
      simp only [runDown, hm] at he
      cases res with
      | error e2 => exact hmig e he
      | ok u =>
          rcases hr : runDown list n (i - 1) ((list.getD (i - 1) DefaultMigration).version)
              (_setControl ((list.getD (i - 1) DefaultMigration).version) true s1).1 with
            ⟨res2, cvf, sf, tr3⟩
          have h3 := ih (i - 1) ((list.getD (i - 1) DefaultMigration).version)
              (_setControl ((list.getD (i - 1) DefaultMigration).version) true s1).1
          rw [hr] at h3
          simp only [hr, List.mem_append] at he
          rcases he with (he1 | he2) | he3
          · exact hmig e he1
          · simp only [_setControl, List.mem_singleton] at he2
            subst he2
            rfl
          · exact h3 e he3

/-- C10: every step invocation performed by `_migrateTo` — on the sequential path and
on the rerun path alike — passes the registered step object itself as the single
argument of its `up`/`down` function (never an empty argument list). -/
theorem c10_step_invocation_contract (list : List MStep) (version : Option Rat)
    (rerun : Bool) (s : MState) (e : Event)
    (he : e ∈ (_migrateTo list version rerun s).2.2) :
    stepArgsSelf e = true := by
  rcases hg : _getControl s with ⟨control, s1, tr1⟩
  have hgc := stepArgsSelf_getControl s
  rw [hg] at hgc
  simp only [_migrateTo, hg] at he
  by_cases hfast : (!rerun && (version == some control.version)) = true
  · simp only [hfast, if_true] at he
    exact hgc e he
  · simp only [Bool.not_eq_true] at hfast
    rcases hl : lock s1 with ⟨isLocked, s2, tr2⟩
    have hlk := stepArgsSelf_lock s1
    rw [hl] at hlk
    simp only [hfast, hl, Bool.false_eq_true, if_false] at he
    cases isLocked with
    | false =>
        simp only [eq_self_iff_true, if_true, List.append_eq, List.mem_append] at he
        rcases he with he1 | he2
        · exact hgc e he1
        · exact hlk e he2
    | true =>
        simp only [Bool.true_eq_false, if_false] at he
        cases rerun with
        | true =>
            simp only [eq_self_iff_true, if_true] at he
            cases hidx : _findIndexByVersion list version with
            | error e2 =>
                rw [hidx] at he
                simp only [_setControl, List.append_eq, List.mem_append, List.mem_singleton] at he
                rcases he with (he1 | he2) | he3
                · exact hgc e he1
                · exact hlk e he2
                · subst he3; rfl
            | ok idx =>
                rw [hidx] at he
                rcases hm : migrate list control.version Dir.up idx s2 with ⟨res, s3, tr3⟩
                have hmig := stepArgsSelf_migrate list control.version Dir.up idx s2
                rw [hm] at hmig
                simp only [hm, _setControl, List.append_eq, List.mem_append,
                  List.mem_singleton] at he
                rcases he with ((he1 | he2) | he3) | he4
                · exact hgc e he1
                · exact hlk e he2
                · exact hmig e he3
                · subst he4; rfl
        | false =>
            simp only [Bool.false_eq_true, if_false] at he
            cases hstart : _findIndexByVersion list (some control.version) with
            | error e2 =>
                rw [hstart] at he
                simp only [List.append_eq, List.mem_append] at he
                rcases he with he1 | he2
                · exact hgc e he1
                · exact hlk e he2
            | ok startIdx =>
                rw [hstart] at he
                cases hend : _findIndexByVersion list version with
                | error e2 =>
                    rw [hend] at he
                    simp only [List.append_eq, List.mem_append] at he
                    rcases he with he1 | he2
                    · exact hgc e he1
                    · exact hlk e he2
                | ok endIdx =>
                    rw [hend] at he
                    rcases hr : (if jsLt control.version version then
                          runUp list (endIdx - startIdx) startIdx control.version s2
                        else
                          runDown list (startIdx - endIdx) startIdx control.version s2) with
                      ⟨res, cvf, s3, tr3⟩
                    have hloop : ∀ e2 ∈ tr3, stepArgsSelf e2 = true := by
                      by_cases hlt : jsLt control.version version = true
                      · rw [if_pos hlt] at hr
                        have h3 := stepArgsSelf_runUp list (endIdx - startIdx) startIdx
                            control.version s2
                        rw [hr] at h3
                        exact h3
                      · rw [if_neg hlt] at hr
                        have h3 := stepArgsSelf_runDown list (startIdx - endIdx) startIdx
                            control.version s2
                        rw [hr] at h3
                        exact h3
                    simp only [hr, _setControl, List.append_eq, List.mem_append, List.mem_singleton] at he
                    rcases he with ((he1 | he2) | he3) | he4
                    · exact hgc e he1
                    · exact hlk e he2
                    · exact hloop e he3
                    · subst he4; rfl

/-- C10 witness: in the concrete {1,2,3} run, the recorded invocation of step 1's `up`
carries the step object itself as its single argument. -/
theorem c10_step_invocation_contract_witness :
    stepArgsSelf (Event.stepRun Dir.up stepOne [stepOne]) = true :=
  c10_step_invocation_contract reg123 (some 3) false ⟨some ⟨0, false, 0⟩, 0⟩
    (Event.stepRun Dir.up stepOne [stepOne]) (by decide)

/-- Helper: the invariant is symmetric in the two processes. -/
theorem swapConfig_lockInv {cfg : Config} (h : LockInv cfg) : LockInv (swapConfig cfg) := by
  obtain ⟨h1, h2, h3, h4, h5, h6, h7, h8⟩ := h
  exact ⟨h1, h3, h2, fun hc => h4 ⟨hc.2, hc.1⟩, h6, h5, h8, h7⟩

/-- Helper: a step of process b is a step of process a after swapping. -/
theorem stepThread_swap (list : List MStep) (target : Rat) (cfg : Config) :
    stepThread list target true cfg =
      swapConfig (stepThread list target false (swapConfig cfg)) := rfl

/-- Helper: one atomic action of process a preserves the invariant. -/
theorem lockInv_stepA (list : List MStep) (target : Rat) (cfg : Config) (h : LockInv cfg) :
    LockInv (stepThread list target false cfg) := by
  obtain ⟨hsome, hna, hnb, hexcl, hab, hba, hqa, hqb⟩ := h
  obtain ⟨c, hc⟩ := Option.isSome_iff_exists.mp hsome
  simp only [stepThread, Bool.false_eq_true, if_false]
  cases hpa : cfg.pa with
  | start =>
      simp only [threadStep, hc]
      refine ⟨hsome, by simp, hnb, by simp [inRegion], ?_, ?_, ?_, hqb⟩
      · intro h1 h2; simp [inRegion] at h1
      · intro hb hp
        exact hba hb (by rw [hpa]; rfl)
      · intro hq
        rw [List.append_nil]
        exact hqa (by rw [hpa]; rfl)
  | needCreate => exact absurd hpa hna
  | gotControl cv =>
      simp only [threadStep]
      by_cases ht : cv = target
      · rw [if_pos ht]
        refine ⟨hsome, by simp, hnb, by simp [inRegion], ?_, ?_, ?_, hqb⟩
        · intro h1 h2; simp [inRegion] at h1
        · intro hb hp; simp [preLock] at hp
        · intro hq
          rw [List.append_nil]
          exact hqa (by rw [hpa]; rfl)
      · rw [if_neg ht]
        cases hcl : c.locked with
        | true =>
            have hlock : lock cfg.shared = (false, cfg.shared, [Event.lockAttempt false]) := by
              simp [lock, hc, hcl]
            simp only [hlock]
            refine ⟨hsome, by simp, hnb, by simp [inRegion], ?_, ?_, ?_, hqb⟩
            · intro h1 h2; simp [inRegion] at h1
            · intro hb hp; simp [preLock] at hp
            · intro hq
              have hclean := hqa (by rw [hpa]; rfl)
              simp only [cleanTrace, List.all_append] at hclean ⊢
              rw [hclean]
              rfl
        | false =>
            have hlock : lock cfg.shared =
                (true, ⟨some ⟨c.version, true, cfg.shared.time⟩, cfg.shared.time + 1⟩,
                  [Event.lockAttempt true]) := by
              simp [lock, hc, hcl]
            simp only [hlock]
            have hregb : inRegion cfg.pb = false := by
              cases hb : inRegion cfg.pb with
              | false => rfl
              | true =>
                  have hld := hba hb (by rw [hpa]; rfl)
                  simp only [lockedNow, hc, hcl] at hld
                  exact absurd hld (by simp)
            have hkey : ∀ pa2 : TPhase, pa2 ≠ TPhase.needCreate → quiet pa2 = false →
                LockInv { cfg with
                  pa := pa2,
                  shared := ⟨some ⟨c.version, true, cfg.shared.time⟩, cfg.shared.time + 1⟩,
                  ta := cfg.ta ++ [Event.lockAttempt true] } := by
              intro pa2 hn hq
              refine ⟨rfl, hn, hnb, ?_, ?_, ?_, ?_, hqb⟩
              · rw [hregb]; simp
              · intro _ _; rfl
              · intro hb; rw [hregb] at hb; exact absurd hb (by simp)
              · intro hq2; rw [hq] at hq2; exact absurd hq2 (by simp)
            cases hf1 : _findIndexByVersion list (some cv) with
            | error e1 =>
                simp only [hf1]
                exact hkey _ (by simp) rfl
            | ok startIdx =>
                cases hf2 : _findIndexByVersion list (some target) with
                | error e2 =>
                    simp only [hf1, hf2]
                    exact hkey _ (by simp) rfl
                | ok endIdx =>
                    simp only [hf1, hf2]
                    by_cases hcmp : cv < target
                    · rw [if_pos hcmp]
                      by_cases hidx : startIdx < endIdx
                      · rw [if_pos hidx]; exact hkey _ (by simp) rfl
                      · rw [if_neg hidx]; exact hkey _ (by simp) rfl
                    · rw [if_neg hcmp]
                      by_cases hidx : endIdx < startIdx
                      · rw [if_pos hidx]; exact hkey _ (by simp) rfl
                      · rw [if_neg hidx]; exact hkey _ (by simp) rfl
  | stepPhase d cv i endIdx =>
      have hregb : inRegion cfg.pb = false := by
        cases hb : inRegion cfg.pb with
        | false => rfl
        | true => exact absurd ⟨by rw [hpa]; rfl, hb⟩ hexcl
      have hray : inRegion cfg.pa = true := by rw [hpa]; rfl
      cases d with
      | up =>
          simp only [threadStep]
          cases hdf : (list.getD (i + 1) DefaultMigration).up with
          | none =>
              simp only [dirFun, hdf, _setControl]
              refine ⟨rfl, by simp, hnb, by simp [inRegion], ?_, ?_, ?_, hqb⟩
              · intro h1 h2; simp [inRegion] at h1
              · intro hb; rw [hregb] at hb; exact absurd hb (by simp)
              · intro hq; simp [quiet] at hq
          | some b =>
              cases b with
              | ok =>
                  simp only [dirFun, hdf]
                  refine ⟨hsome, by simp, hnb, ?_, ?_, ?_, ?_, hqb⟩
                  · rw [hregb]; simp
                  · intro h1 hp
                    exact hab hray hp
                  · intro hb; rw [hregb] at hb; exact absurd hb (by simp)
                  · intro hq; simp [quiet] at hq
              | throws e2 =>
                  simp only [dirFun, hdf]
                  refine ⟨hsome, by simp, hnb, by simp [inRegion], ?_, ?_, ?_, hqb⟩
                  · intro h1 h2; simp [inRegion] at h1
                  · intro hb; rw [hregb] at hb; exact absurd hb (by simp)
                  · intro hq; simp [quiet] at hq
      | down =>
          simp only [threadStep]
          cases hdf : (list.getD i DefaultMigration).down with
          | none =>
              simp only [dirFun, hdf, _setControl]
              refine ⟨rfl, by simp, hnb, by simp [inRegion], ?_, ?_, ?_, hqb⟩
              · intro h1 h2; simp [inRegion] at h1
              · intro hb; rw [hregb] at hb; exact absurd hb (by simp)
              · intro hq; simp [quiet] at hq
          | some b =>
              cases b with
              | ok =>
                  simp only [dirFun, hdf]
                  refine ⟨hsome, by simp, hnb, ?_, ?_, ?_, ?_, hqb⟩
                  · rw [hregb]; simp
                  · intro h1 hp
                    exact hab hray hp
                  · intro hb; rw [hregb] at hb; exact absurd hb (by simp)
                  · intro hq; simp [quiet] at hq
              | throws e2 =>
                  simp only [dirFun, hdf]
                  refine ⟨hsome, by simp, hnb, by simp [inRegion], ?_, ?_, ?_, hqb⟩
                  · intro h1 h2; simp [inRegion] at h1
                  · intro hb; rw [hregb] at hb; exact absurd hb (by simp)
                  · intro hq; simp [quiet] at hq
  | ckptPhase d cv i endIdx =>
      have hregb : inRegion cfg.pb = false := by
        cases hb : inRegion cfg.pb with
        | false => rfl
        | true => exact absurd ⟨by rw [hpa]; rfl, hb⟩ hexcl
      simp only [threadStep, _setControl]
      have hkey : ∀ pa2 : TPhase, pa2 ≠ TPhase.needCreate → quiet pa2 = false →
          LockInv { cfg with
            pa := pa2,
            shared := ⟨some ⟨cv, true, cfg.shared.time⟩, cfg.shared.time + 1⟩,
            ta := cfg.ta ++ [Event.setControl cv true] } := by
        intro pa2 hn hq
        refine ⟨rfl, hn, hnb, ?_, ?_, ?_, ?_, hqb⟩
        · rw [hregb]; simp
        · intro _ _; rfl
        · intro hb; rw [hregb] at hb; exact absurd hb (by simp)
        · intro hq2; rw [hq] at hq2; exact absurd hq2 (by simp)
      cases d with
      | up =>
          by_cases hidx : i + 1 < endIdx
          · simp only [if_pos hidx]; exact hkey _ (by simp) rfl
          · simp only [if_neg hidx]; exact hkey _ (by simp) rfl
      | down =>
          by_cases hidx : endIdx < i - 1
          · simp only [if_pos hidx]; exact hkey _ (by simp) rfl
          · simp only [if_neg hidx]; exact hkey _ (by simp) rfl
  | unlockPhase failed cv =>
      simp only [threadStep, _setControl]
      have hkey : ∀ pa2 : TPhase, pa2 ≠ TPhase.needCreate → quiet pa2 = false →
          inRegion pa2 = false → preLock pa2 = false →
          LockInv { cfg with
            pa := pa2,
            shared := ⟨some ⟨cv, false, cfg.shared.time⟩, cfg.shared.time + 1⟩,
            ta := cfg.ta ++ [Event.setControl cv false] } := by
        intro pa2 hn hq hr hp
        refine ⟨rfl, hn, hnb, ?_, ?_, ?_, ?_, hqb⟩
        · rw [hr]; simp
        · intro h1; rw [hr] at h1; exact absurd h1 (by simp)
        · intro hb hp2; rw [hp] at hp2; exact absurd hp2 (by simp)
        · intro hq2; rw [hq] at hq2; exact absurd hq2 (by simp)
      cases failed with
      | true => exact hkey _ (by simp) rfl rfl rfl
      | false => exact hkey _ (by simp) rfl rfl rfl
  | doneFast =>
      simp only [threadStep]
      refine ⟨hsome, by simp, hnb, by simp [inRegion], ?_, ?_, ?_, hqb⟩
      · intro h1 h2; simp [inRegion] at h1
      · intro hb hp; simp [preLock] at hp
      · intro hq
        rw [List.append_nil]
        exact hqa (by rw [hpa]; rfl)
  | doneDenied =>
      simp only [threadStep]
      refine ⟨hsome, by simp, hnb, by simp [inRegion], ?_, ?_, ?_, hqb⟩
      · intro h1 h2; simp [inRegion] at h1
      · intro hb hp; simp [preLock] at hp
      · intro hq
        rw [List.append_nil]
        exact hqa (by rw [hpa]; rfl)
  | doneOk =>
      simp only [threadStep]
      refine ⟨hsome, by simp, hnb, by simp [inRegion], ?_, ?_, ?_, hqb⟩
      · intro h1 h2; simp [inRegion] at h1
      · intro hb hp; simp [preLock] at hp
      · intro hq; simp [quiet] at hq
  | doneErr =>
      simp only [threadStep]
      refine ⟨hsome, by simp, hnb, by simp [inRegion], ?_, ?_, ?_, hqb⟩
      · intro h1 h2; simp [inRegion] at h1
      · intro hb hp; simp [preLock] at hp
      · intro hq; simp [quiet] at hq
  | doneErrLockHeld =>
      simp only [threadStep]
      refine ⟨hsome, by simp, hnb, by simp [inRegion], ?_, ?_, ?_, hqb⟩
      · intro h1 h2; simp [inRegion] at h1
      · intro hb hp; simp [preLock] at hp
      · intro hq; simp [quiet] at hq

/-- Helper: every scheduled atomic action preserves the invariant. -/
theorem lockInv_stepThread (list : List MStep) (target : Rat) (who : Bool) (cfg : Config)
    (h : LockInv cfg) : LockInv (stepThread list target who cfg) := by
  cases who with
  | false => exact lockInv_stepA list target cfg h
  | true =>
      rw [stepThread_swap]
      exact swapConfig_lockInv (lockInv_stepA list target (swapConfig cfg) (swapConfig_lockInv h))

/-- Helper: the invariant holds along every schedule. -/
theorem lockInv_runSched (list : List MStep) (target : Rat) :
    ∀ (sched : List Bool) (cfg : Config),
      LockInv cfg → LockInv (runSched list target sched cfg)
  | [], _, h => h
  | who :: rest, cfg, h =>
      lockInv_runSched list target rest _ (lockInv_stepThread list target who cfg h)

/-- C3 amended: under every interleaving of two concurrent `migrateTo('latest')` runs
against one shared store (control record present initially), at most one process is
inside the step-executing region at any point — mutual exclusion in time, arbitrated by
the atomic `tryLock` — and a process that observes lock denial terminates without error
having invoked zero step functions and performed zero store writes.  (The literal claim
— that exactly one of the two executes any step function and the other observes denial
— is refuted by `c3_counterexample`: after a stale pre-lock read of the control record,
the loser can acquire the freed lock later and re-run the steps, and in a serialized
schedule the second call sees the fast path rather than denial.) -/
theorem c3_amended_mutual_exclusion (list : List MStep) (c0 : ControlRecord) (t0 : Nat)
    (sched : List Bool) :
    ¬(inRegion (runSched list (latestVersion list) sched (initConfig c0 t0)).pa = true ∧
        inRegion (runSched list (latestVersion list) sched (initConfig c0 t0)).pb = true) ∧
    ((runSched list (latestVersion list) sched (initConfig c0 t0)).pa = TPhase.doneDenied →
        cleanTrace (runSched list (latestVersion list) sched (initConfig c0 t0)).ta = true) ∧
    ((runSched list (latestVersion list) sched (initConfig c0 t0)).pb = TPhase.doneDenied →
        cleanTrace (runSched list (latestVersion list) sched (initConfig c0 t0)).tb = true) := by
  have hinit : LockInv (initConfig c0 t0) := by
    refine ⟨rfl, by simp [initConfig], by simp [initConfig], by simp [initConfig, inRegion],
      ?_, ?_, fun _ => rfl, fun _ => rfl⟩
    · intro h1 h2; simp [initConfig, inRegion] at h1
    · intro h1 h2; simp [initConfig, inRegion] at h1
  obtain ⟨h1, h2, h3, h4, h5, h6, h7, h8⟩ :=
    lockInv_runSched list (latestVersion list) sched (initConfig c0 t0) hinit
  refine ⟨h4, ?_, ?_⟩
  · intro hd
    exact h7 (by rw [hd]; rfl)
  · intro hd
    exact h8 (by rw [hd]; rfl)

/-- C3 amended witness: in a schedule where process a locks first, process b observes
denial with a read-only trace. -/
theorem c3_amended_mutual_exclusion_witness :
    cleanTrace (runSched reg123 (latestVersion reg123) [false, false, true, true]
      (initConfig ⟨0, false, 0⟩ 0)).tb = true :=
  (c3_amended_mutual_exclusion reg123 ⟨0, false, 0⟩ 0 [false, false, true, true]).2.2
    (by decide)

end MeteorMigrations
